import Mathlib

/-!
Verification of `mylib/set_interval.py` (`ManagedIntervals`): a set of
disjoint half-open integer intervals `[l, r)` kept in a list sorted by left
endpoint, with incremental union (`add`), subtraction (`remove`), point
queries (`get_interval`, `__contains__`) and a cached `total_length`.

The Python class stores its intervals in a `sortedcontainers.SortedList` of
pairs `(l, r)` ordered lexicographically.  We embed that state as a Lean
`List (Int × Int)` (the sorted order is part of the class invariant) plus
the cached total length, and translate each method body directly.
-/

/-- Lexicographic order on `(Int, Int)` pairs, the order used by Python's
`SortedList` on tuples. -/
def pairLt (a b : Int × Int) : Prop :=
  a.1 < b.1 ∨ (a.1 = b.1 ∧ a.2 < b.2)

instance (a b : Int × Int) : Decidable (pairLt a b) := by
  unfold pairLt; infer_instance

/-- `SortedList.add`: insert `x` into the sorted list, after any equal
elements (`bisect_right` insertion point). -/
def slAdd : List (Int × Int) → Int × Int → List (Int × Int)
  | [], x => [x]
  | y :: ys, x => if pairLt x y then x :: y :: ys else y :: slAdd ys x

/-- `SortedList.remove`: remove the first occurrence of `y`.  (Python raises
`ValueError` when `y` is absent; every call site below removes an element
that was just read from the list, so the element is always present.) -/
def slRemove : List (Int × Int) → Int × Int → List (Int × Int)
  | [], _ => []
  | x :: xs, y => if x = y then xs else x :: slRemove xs y

/-- `self._intervals.bisect_right((l, float("inf")))` on the sorted interval
list: the index of the first stored interval whose start exceeds `l`
(equivalently, the number of stored intervals with start `≤ l`, since an
`Int` second component always compares below `+inf`). -/
def bisectIdx (ivs : List (Int × Int)) (l : Int) : Nat :=
  ivs.findIdx (fun p => decide (l < p.1))

/-- The scan start index computed by `add`/`remove`:
`idx = bisect_right((l, inf)); if idx > 0: idx -= 1`. -/
def scanStart (ivs : List (Int × Int)) (l : Int) : Nat :=
  if 0 < bisectIdx ivs l then bisectIdx ivs l - 1 else bisectIdx ivs l

/-- Sum of the lengths `r - l` of a list of intervals (the
`sum(R - L for L, R in ...)` expressions). -/
def sumLen (xs : List (Int × Int)) : Int :=
  (xs.map (fun p => p.2 - p.1)).sum

/-- The scanning loop of `add`: walk the stored intervals, breaking when
`L > merged_r`, skipping when `R < merged_l`, otherwise collecting the
interval and widening `(merged_l, merged_r)`.  Returns the final
`(merged_l, merged_r, to_remove)`. -/
def addScan : List (Int × Int) → Int → Int → List (Int × Int) →
    Int × Int × List (Int × Int)
  | [], ml, mr, acc => (ml, mr, acc)
  | p :: rest, ml, mr, acc =>
    if mr < p.1 then (ml, mr, acc)
    else if p.2 < ml then addScan rest ml mr acc
    else addScan rest (min ml p.1) (max mr p.2) (acc ++ [p])

/-- The scanning loop of `remove`: walk the stored intervals, breaking when
`L ≥ r`, skipping when `R ≤ l`, otherwise collecting the interval in
`to_remove` and queuing its surviving remnants `(L, l)` (when `L < l`) and
`(r, R)` (when `r < R`) in `to_add`.  Returns `(to_remove, to_add)`. -/
def removeScan (l r : Int) : List (Int × Int) →
    List (Int × Int) × List (Int × Int)
  | [] => ([], [])
  | p :: rest =>
    if r ≤ p.1 then ([], [])
    else if p.2 ≤ l then removeScan l r rest
    else
      let res := removeScan l r rest
      (p :: res.1,
        ((if p.1 < l then [(p.1, l)] else []) ++
         (if r < p.2 then [(r, p.2)] else [])) ++ res.2)

/-- The state of a `ManagedIntervals` object: the backing sorted list of
intervals `_intervals` and the cached `_total_length`. -/
structure ManagedIntervals where
  intervals : List (Int × Int)
  total_length : Int
  deriving DecidableEq, Repr

namespace ManagedIntervals

/-- `ManagedIntervals()`: the freshly constructed empty set. -/
def empty : ManagedIntervals := ⟨[], 0⟩

/-- `add(l, r)`: union the set with `[l, r)`.  Returns on `l >= r`;
otherwise scans from the predecessor of `l`, removes every interval that
overlaps or touches the growing merged range, inserts the single merged
interval, and adjusts `_total_length`.  (The Python `if to_remove:` guard
around the removal block is the identity when `to_remove` is empty: no
element is removed and `old_len = 0`.) -/
def add (s : ManagedIntervals) (l r : Int) : ManagedIntervals :=
  if l ≥ r then s
  else
    let res := addScan (s.intervals.drop (scanStart s.intervals l)) l r []
    let ml := res.1
    let mr := res.2.1
    let toRemove := res.2.2
    { intervals := slAdd (toRemove.foldl slRemove s.intervals) (ml, mr),
      total_length := s.total_length - sumLen toRemove + (mr - ml) }

/-- `remove(l, r)`: subtract `[l, r)` from the set.  Returns on `l >= r`;
otherwise scans from the predecessor of `l`, collects every truly
overlapping interval together with its remnants, and (only when something
was collected) removes the collected intervals, inserts the remnants and
adjusts `_total_length`. -/
def remove (s : ManagedIntervals) (l r : Int) : ManagedIntervals :=
  if l ≥ r then s
  else
    let res := removeScan l r (s.intervals.drop (scanStart s.intervals l))
    let toRemove := res.1
    let toAdd := res.2
    if toRemove = [] then s
    else
      { intervals := toAdd.foldl slAdd (toRemove.foldl slRemove s.intervals),
        total_length := s.total_length + sumLen toAdd - sumLen toRemove }

/-- `get_interval(x)`: `bisect_right((x, inf))`; `None` when the index is
`0`, otherwise test `x < r` on the predecessor candidate.  (The
`List.get?` fallback `none` is unreachable: the index is at most the list
length and positive in that branch.) -/
def get_interval (s : ManagedIntervals) (x : Int) : Option (Int × Int) :=
  let idx := bisectIdx s.intervals x
  if idx = 0 then none
  else
    match s.intervals.get? (idx - 1) with
    | none => none
    | some p => if x < p.2 then some p else none

/-- `__contains__(x)`: `self.get_interval(x) is not None`. -/
def contains (s : ManagedIntervals) (x : Int) : Bool :=
  (s.get_interval x).isSome

/-- `to_list()`: the stored intervals in ascending order. -/
def to_list (s : ManagedIntervals) : List (Int × Int) :=
  s.intervals

/-- `__len__()`: the number of stored intervals. -/
def length (s : ManagedIntervals) : Nat :=
  s.intervals.length

/-- `add` observed through Python's exception behaviour: the method body
contains no `raise` statement, so every call returns normally (`ok`). -/
def addE (s : ManagedIntervals) (l r : Int) : Except String ManagedIntervals :=
  Except.ok (s.add l r)

/-- `remove` observed through Python's exception behaviour: the method body
contains no `raise` statement, so every call returns normally (`ok`). -/
def removeE (s : ManagedIntervals) (l r : Int) :
    Except String ManagedIntervals :=
  Except.ok (s.remove l r)

end ManagedIntervals

/-- An integer point `x` is covered by the set: some stored interval
`(l, r)` has `l ≤ x < r`. -/
def Covered (s : ManagedIntervals) (x : Int) : Prop :=
  ∃ p ∈ s.intervals, p.1 ≤ x ∧ x < p.2

instance (s : ManagedIntervals) (x : Int) : Decidable (Covered s x) := by
  unfold Covered; infer_instance

/-- The shape part of the class invariant: every stored interval is
nonempty (`l < r`) and the stored intervals are pairwise separated
(`r_i < l_j` for `i < j`), which subsumes sortedness by left endpoint. -/
def goodList (ivs : List (Int × Int)) : Prop :=
  (∀ p ∈ ivs, p.1 < p.2) ∧ ivs.Pairwise (fun a b => a.2 < b.1)

instance (ivs : List (Int × Int)) : Decidable (goodList ivs) := by
  unfold goodList; infer_instance

/-- The full class invariant: shape invariant plus the cached
`_total_length` agreeing with the sum of interval lengths. -/
def StateInv (s : ManagedIntervals) : Prop :=
  goodList s.intervals ∧ s.total_length = sumLen s.intervals

instance (s : ManagedIntervals) : Decidable (StateInv s) := by
  unfold StateInv; infer_instance

/-- One `add`/`remove` call in a call sequence. -/
inductive Op where
  | add (l r : Int)
  | remove (l r : Int)

/-- Execute one call on a state. -/
def applyOp (s : ManagedIntervals) (op : Op) : ManagedIntervals :=
  match op with
  | .add l r => s.add l r
  | .remove l r => s.remove l r

/-- Execute a call sequence starting from the freshly constructed set. -/
def run (ops : List Op) : ManagedIntervals :=
  ops.foldl applyOp ManagedIntervals.empty

/-- The remnants queued by `remove`'s scan for a list of collected
intervals, in collection order. -/
def remnants (l r : Int) (ps : List (Int × Int)) : List (Int × Int) :=
  ps.flatMap (fun p =>
    (if p.1 < l then [(p.1, l)] else []) ++
    (if r < p.2 then [(r, p.2)] else []))

/-! ### Basic facts about the sorted-list primitives -/

theorem pairLt_asymm {a b : Int × Int} (h : pairLt a b) : ¬ pairLt b a := by
  rcases h with h | ⟨h1, h2⟩ <;> rintro (h' | ⟨h1', h2'⟩) <;> omega

theorem slAdd_append_cons (x : Int × Int) :
    ∀ (pre post : List (Int × Int)), (∀ p ∈ pre, ¬ pairLt x p) →
      (∀ q ∈ post, pairLt x q) → slAdd (pre ++ post) x = pre ++ x :: post := by
  intro pre
  induction pre with
  | nil =>
    intro post _ hpost
    cases post with
    | nil => rfl
    | cons q t =>
      simp only [List.nil_append, slAdd]
      rw [if_pos (hpost q (by simp))]
  | cons p t ih =>
    intro post hpre hpost
    simp only [List.cons_append, slAdd, List.append_eq]
    rw [if_neg (hpre p (by simp)), ih post (fun q hq => hpre q (by simp [hq])) hpost]

theorem slRemove_append_cons (x : Int × Int) :
    ∀ (pre post : List (Int × Int)), x ∉ pre →
      slRemove (pre ++ x :: post) x = pre ++ post := by
  intro pre
  induction pre with
  | nil => intro post _; simp [slRemove]
  | cons p t ih =>
    intro post hx
    simp only [List.cons_append, slRemove, List.append_eq]
    rw [if_neg (by simp at hx; exact fun h => hx.1 h.symm),
      ih post (by simp at hx; exact hx.2)]

theorem foldl_slRemove_middle :
    ∀ (mid pre post : List (Int × Int)), (∀ m ∈ mid, m ∉ pre) →
      List.foldl slRemove (pre ++ (mid ++ post)) mid = pre ++ post := by
  intro mid
  induction mid with
  | nil => intro pre post _; simp
  | cons m t ih =>
    intro pre post hmid
    simp only [List.cons_append, List.foldl_cons]
    rw [show pre ++ m :: (t ++ post) = pre ++ m :: (t ++ post) from rfl,
      slRemove_append_cons m pre (t ++ post) (hmid m (by simp))]
    exact ih pre post (fun a ha => hmid a (by simp [ha]))

theorem foldl_slAdd_middle :
    ∀ (xs pre post : List (Int × Int)),
      (∀ a ∈ xs, ∀ p ∈ pre, ¬ pairLt a p) →
      (∀ a ∈ xs, ∀ q ∈ post, pairLt a q) →
      xs.Pairwise pairLt →
      List.foldl slAdd (pre ++ post) xs = pre ++ (xs ++ post) := by
  intro xs
  induction xs with
  | nil => intro pre post _ _ _; simp
  | cons a t ih =>
    intro pre post hpre hpost hpw
    simp only [List.foldl_cons]
    rw [slAdd_append_cons a pre post (hpre a (by simp)) (hpost a (by simp))]
    have h1 : pre ++ a :: post = (pre ++ [a]) ++ post := by simp
    have hpw' := List.pairwise_cons.mp hpw
    rw [h1, ih (pre ++ [a]) post ?hp ?hq hpw'.2]
    · simp
    case hp =>
      intro b hb p hp
      rcases List.mem_append.mp hp with h | h
      · exact hpre b (by simp [hb]) p h
      · simp at h; subst h; exact pairLt_asymm (hpw'.1 b hb)
    case hq =>
      intro b hb q hq; exact hpost b (by simp [hb]) q hq

/-! ### Facts about `goodList` -/

theorem goodList_sublist {l₁ l₂ : List (Int × Int)} (hs : l₁.Sublist l₂)
    (h : goodList l₂) : goodList l₁ :=
  ⟨fun p hp => h.1 p (hs.mem hp), h.2.sublist hs⟩

/-! ### Bounds on folded minima and maxima -/

theorem foldl_min_le_init (xs : List (Int × Int)) :
    ∀ a : Int, xs.foldl (fun a p => min a p.1) a ≤ a := by
  induction xs with
  | nil => intro a; simp
  | cons p t ih =>
    intro a
    simp only [List.foldl_cons]
    exact le_trans (ih (min a p.1)) (by omega)

theorem lt_foldl_min (xs : List (Int × Int)) {c : Int} :
    ∀ a : Int, c < a → (∀ p ∈ xs, c < p.1) →
      c < xs.foldl (fun a p => min a p.1) a := by
  induction xs with
  | nil => intro a ha _; simpa using ha
  | cons p t ih =>
    intro a ha hxs
    simp only [List.foldl_cons]
    exact ih (min a p.1) (by have := hxs p (by simp); omega)
      (fun q hq => hxs q (by simp [hq]))

theorem le_foldl_max_init (xs : List (Int × Int)) :
    ∀ a : Int, a ≤ xs.foldl (fun a p => max a p.2) a := by
  induction xs with
  | nil => intro a; simp
  | cons p t ih =>
    intro a
    simp only [List.foldl_cons]
    exact le_trans (by omega) (ih (max a p.2))

theorem foldl_max_lt (xs : List (Int × Int)) {c : Int} :
    ∀ a : Int, a < c → (∀ p ∈ xs, p.2 < c) →
      xs.foldl (fun a p => max a p.2) a < c := by
  induction xs with
  | nil => intro a ha _; simpa using ha
  | cons p t ih =>
    intro a ha hxs
    simp only [List.foldl_cons]
    exact ih (max a p.2) (by have := hxs p (by simp); omega)
      (fun q hq => hxs q (by simp [hq]))

/-! ### `sumLen` facts -/

theorem sumLen_append (l₁ l₂ : List (Int × Int)) :
    sumLen (l₁ ++ l₂) = sumLen l₁ + sumLen l₂ := by
  simp [sumLen]

theorem sumLen_cons (p : Int × Int) (l : List (Int × Int)) :
    sumLen (p :: l) = (p.2 - p.1) + sumLen l := by
  simp [sumLen]

/-! ### `takeWhile` / `dropWhile` helpers -/

theorem dropWhile_head_not {p : Int × Int → Bool} :
    ∀ {l : List (Int × Int)} {a : Int × Int} {t : List (Int × Int)},
      l.dropWhile p = a :: t → p a = false := by
  intro l
  induction l with
  | nil => intro a t h; simp [List.dropWhile] at h
  | cons b u ih =>
    intro a t h
    by_cases hb : p b
    · rw [List.dropWhile_cons_of_pos hb] at h; exact ih h
    · rw [List.dropWhile_cons_of_neg hb] at h
      cases h; simpa using hb

theorem takeWhile_eq_nil_all {p : Int × Int → Bool} {l : List (Int × Int)}
    (h : ∀ a ∈ l, ¬ p a) : l.takeWhile p = [] := by
  cases l with
  | nil => rfl
  | cons a t => exact List.takeWhile_cons_of_neg (h a (by simp))

theorem dropWhile_eq_self_all {p : Int × Int → Bool} {l : List (Int × Int)}
    (h : ∀ a ∈ l, ¬ p a) : l.dropWhile p = l := by
  cases l with
  | nil => rfl
  | cons a t => exact List.dropWhile_cons_of_neg (h a (by simp))

/-! ### The scan start index lands no deeper than the untouched prefix -/

theorem bisectIdx_le_takeWhile (c : Int × Int → Bool) (l : Int) :
    ∀ ivs : List (Int × Int), ivs.Pairwise (fun a b => a.2 < b.1) →
      (∀ p ∈ ivs, c p = true → ¬ (l < p.1)) →
      (∀ p ∈ ivs, c p = false → l ≤ p.2) →
      bisectIdx ivs l ≤ (ivs.takeWhile c).length + 1 := by
  intro ivs
  induction ivs with
  | nil => intro _ _ _; simp [bisectIdx]
  | cons a xs ih =>
    intro hpw htrue hfalse
    by_cases ha : l < a.1
    · simp [bisectIdx, List.findIdx_cons, ha]
    · have hstep : bisectIdx (a :: xs) l = bisectIdx xs l + 1 := by
        simp [bisectIdx, List.findIdx_cons, ha]
      by_cases hc : c a
      · rw [hstep, List.takeWhile_cons_of_pos hc]
        have := ih (List.pairwise_cons.mp hpw).2
          (fun p hp => htrue p (by simp [hp])) (fun p hp => hfalse p (by simp [hp]))
        simp only [List.length_cons]
        omega
      · rw [hstep, takeWhile_eq_nil_all ?hall]
        case hall =>
          intro b hb hcb
          rcases List.mem_cons.mp hb with h | h
          · subst h; exact hc hcb
          · exfalso
            have h1 := hfalse a (by simp) (by simpa using hc)
            have h2 := (List.pairwise_cons.mp hpw).1 b h
            have h3 := htrue b (by simp [h]) hcb
            omega
        have hxs : bisectIdx xs l = 0 := by
          cases xs with
          | nil => simp [bisectIdx]
          | cons b t =>
            have h1 := hfalse a (by simp) (by simpa using hc)
            have h2 := (List.pairwise_cons.mp hpw).1 b (by simp)
            simp [bisectIdx, List.findIdx_cons, show l < b.1 by omega]
        rw [hxs]; simp

theorem scanStart_le_takeWhile (c : Int × Int → Bool) (l : Int)
    (ivs : List (Int × Int)) (hpw : ivs.Pairwise (fun a b => a.2 < b.1))
    (htrue : ∀ p ∈ ivs, c p = true → ¬ (l < p.1))
    (hfalse : ∀ p ∈ ivs, c p = false → l ≤ p.2) :
    scanStart ivs l ≤ (ivs.takeWhile c).length := by
  have h := bisectIdx_le_takeWhile c l ivs hpw htrue hfalse
  unfold scanStart
  split <;> omega

/-! ### Partition of a disjoint sorted list around a query range

For `add(l, r)` the stored list splits into the intervals entirely left of
`[l, r)` (end `< l`, neither overlapping nor touching), the block that
overlaps or touches `[l, r)`, and the intervals entirely right of it
(start `> r`).  `remove(l, r)` uses the strict-overlap convention instead:
left part has end `≤ l`, middle truly overlaps, right part has start `≥ r`. -/

def addPre (ivs : List (Int × Int)) (l : Int) : List (Int × Int) :=
  ivs.takeWhile (fun p => decide (p.2 < l))

def addMid (ivs : List (Int × Int)) (l r : Int) : List (Int × Int) :=
  (ivs.dropWhile (fun p => decide (p.2 < l))).takeWhile (fun p => decide (p.1 ≤ r))

def addPost (ivs : List (Int × Int)) (l r : Int) : List (Int × Int) :=
  (ivs.dropWhile (fun p => decide (p.2 < l))).dropWhile (fun p => decide (p.1 ≤ r))

def remPre (ivs : List (Int × Int)) (l : Int) : List (Int × Int) :=
  ivs.takeWhile (fun p => decide (p.2 ≤ l))

def remMid (ivs : List (Int × Int)) (l r : Int) : List (Int × Int) :=
  (ivs.dropWhile (fun p => decide (p.2 ≤ l))).takeWhile (fun p => decide (p.1 < r))

def remPost (ivs : List (Int × Int)) (l r : Int) : List (Int × Int) :=
  (ivs.dropWhile (fun p => decide (p.2 ≤ l))).dropWhile (fun p => decide (p.1 < r))

theorem add_partition (ivs : List (Int × Int)) (l r : Int) :
    ivs = addPre ivs l ++ (addMid ivs l r ++ addPost ivs l r) := by
  unfold addPre addMid addPost
  rw [List.takeWhile_append_dropWhile, List.takeWhile_append_dropWhile]

theorem rem_partition (ivs : List (Int × Int)) (l r : Int) :
    ivs = remPre ivs l ++ (remMid ivs l r ++ remPost ivs l r) := by
  unfold remPre remMid remPost
  rw [List.takeWhile_append_dropWhile, List.takeWhile_append_dropWhile]

theorem mem_addPre {ivs : List (Int × Int)} {l : Int} {p : Int × Int}
    (h : p ∈ addPre ivs l) : p.2 < l := by
  have := List.mem_takeWhile_imp h
  simpa using this

theorem mem_remPre {ivs : List (Int × Int)} {l : Int} {p : Int × Int}
    (h : p ∈ remPre ivs l) : p.2 ≤ l := by
  have := List.mem_takeWhile_imp h
  simpa using this

/-- Every element of the part of a good list where the ends have reached `l`
(the `dropWhile` of `addPre`'s predicate) has end `≥ l`. -/
theorem mem_dropWhile_add_ge {ivs : List (Int × Int)} {l : Int}
    (hg : goodList ivs) :
    ∀ p ∈ ivs.dropWhile (fun p => decide (p.2 < l)), l ≤ p.2 := by
  intro p hp
  cases hrest : ivs.dropWhile (fun p => decide (p.2 < l)) with
  | nil => rw [hrest] at hp; simp at hp
  | cons a t =>
    have hhead : ¬ (a.2 < l) := by simpa using dropWhile_head_not hrest
    have hgr : goodList (a :: t) := by
      rw [← hrest]; exact goodList_sublist (List.dropWhile_sublist _) hg
    rw [hrest] at hp
    rcases List.mem_cons.mp hp with h | h
    · subst h; omega
    · have h1 := (List.pairwise_cons.mp hgr.2).1 p h
      have h2 := hgr.1 p (by simp [h])
      omega

/-- Every element of the part of a good list where the ends exceed `l`
(the `dropWhile` of `remPre`'s predicate) has end `> l`. -/
theorem mem_dropWhile_rem_gt {ivs : List (Int × Int)} {l : Int}
    (hg : goodList ivs) :
    ∀ p ∈ ivs.dropWhile (fun p => decide (p.2 ≤ l)), l < p.2 := by
  intro p hp
  cases hrest : ivs.dropWhile (fun p => decide (p.2 ≤ l)) with
  | nil => rw [hrest] at hp; simp at hp
  | cons a t =>
    have hhead : ¬ (a.2 ≤ l) := by simpa using dropWhile_head_not hrest
    have hgr : goodList (a :: t) := by
      rw [← hrest]; exact goodList_sublist (List.dropWhile_sublist _) hg
    rw [hrest] at hp
    rcases List.mem_cons.mp hp with h | h
    · subst h; omega
    · have h1 := (List.pairwise_cons.mp hgr.2).1 p h
      have h2 := hgr.1 p (by simp [h])
      omega

theorem mem_addMid {ivs : List (Int × Int)} {l r : Int} {p : Int × Int}
    (hg : goodList ivs) (h : p ∈ addMid ivs l r) : l ≤ p.2 ∧ p.1 ≤ r := by
  refine ⟨?_, by simpa using List.mem_takeWhile_imp h⟩
  exact mem_dropWhile_add_ge hg p ((List.takeWhile_sublist _).mem h)

theorem mem_remMid {ivs : List (Int × Int)} {l r : Int} {p : Int × Int}
    (hg : goodList ivs) (h : p ∈ remMid ivs l r) : l < p.2 ∧ p.1 < r := by
  refine ⟨?_, by simpa using List.mem_takeWhile_imp h⟩
  exact mem_dropWhile_rem_gt hg p ((List.takeWhile_sublist _).mem h)

/-- In a good list, every element past the `start ≤ r` block has start
`> r`. -/
theorem mem_dropWhile_start_gt {xs : List (Int × Int)} {r : Int}
    (hg : goodList xs) :
    ∀ q ∈ xs.dropWhile (fun p => decide (p.1 ≤ r)), r < q.1 := by
  intro q hq
  cases hrest : xs.dropWhile (fun p => decide (p.1 ≤ r)) with
  | nil => rw [hrest] at hq; simp at hq
  | cons a t =>
    have hhead : ¬ (a.1 ≤ r) := by simpa using dropWhile_head_not hrest
    have hgr : goodList (a :: t) := by
      rw [← hrest]; exact goodList_sublist (List.dropWhile_sublist _) hg
    rw [hrest] at hq
    rcases List.mem_cons.mp hq with h | h
    · subst h; omega
    · have h1 := (List.pairwise_cons.mp hgr.2).1 q h
      have h2 := hgr.1 a (by simp)
      omega

/-- In a good list, every element past the `start < r` block has start
`≥ r`. -/
theorem mem_dropWhile_start_ge {xs : List (Int × Int)} {r : Int}
    (hg : goodList xs) :
    ∀ q ∈ xs.dropWhile (fun p => decide (p.1 < r)), r ≤ q.1 := by
  intro q hq
  cases hrest : xs.dropWhile (fun p => decide (p.1 < r)) with
  | nil => rw [hrest] at hq; simp at hq
  | cons a t =>
    have hhead : ¬ (a.1 < r) := by simpa using dropWhile_head_not hrest
    have hgr : goodList (a :: t) := by
      rw [← hrest]; exact goodList_sublist (List.dropWhile_sublist _) hg
    rw [hrest] at hq
    rcases List.mem_cons.mp hq with h | h
    · subst h; omega
    · have h1 := (List.pairwise_cons.mp hgr.2).1 q h
      have h2 := hgr.1 a (by simp)
      omega

theorem mem_addPost {ivs : List (Int × Int)} {l r : Int} {q : Int × Int}
    (hg : goodList ivs) (h : q ∈ addPost ivs l r) : r < q.1 :=
  mem_dropWhile_start_gt (goodList_sublist (List.dropWhile_sublist _) hg) q h

theorem mem_remPost {ivs : List (Int × Int)} {l r : Int} {q : Int × Int}
    (hg : goodList ivs) (h : q ∈ remPost ivs l r) : r ≤ q.1 :=
  mem_dropWhile_start_ge (goodList_sublist (List.dropWhile_sublist _) hg) q h

/-! ### The scanning loops on a partitioned good list -/

/-- Elements whose end lies strictly below the current merged lower bound
are skipped by `add`'s scan. -/
theorem addScan_skip {ml mr : Int} (hmlr : ml ≤ mr) :
    ∀ (skip ys : List (Int × Int)) (acc : List (Int × Int)),
      (∀ p ∈ skip, p.1 < p.2 ∧ p.2 < ml) →
      addScan (skip ++ ys) ml mr acc = addScan ys ml mr acc := by
  intro skip
  induction skip with
  | nil => intro ys acc _; rfl
  | cons p t ih =>
    intro ys acc hskip
    have hp := hskip p (by simp)
    simp only [List.cons_append, addScan]
    rw [if_neg (by omega), if_pos (by omega)]
    exact ih ys acc (fun q hq => hskip q (by simp [hq]))

/-- `add`'s scan collects exactly the middle block and folds its bounds
into `merged_l`/`merged_r`. -/
theorem addScan_main :
    ∀ (mid : List (Int × Int)) (ml mr : Int) (acc post : List (Int × Int)),
      (∀ p ∈ mid, ml ≤ p.2 ∧ p.1 ≤ mr) →
      (∀ q ∈ post, mr < q.1) →
      (∀ p ∈ mid, ∀ q ∈ post, p.2 < q.1) →
      addScan (mid ++ post) ml mr acc =
        (mid.foldl (fun a p => min a p.1) ml,
         mid.foldl (fun a p => max a p.2) mr, acc ++ mid) := by
  intro mid
  induction mid with
  | nil =>
    intro ml mr acc post _ hpost _
    cases post with
    | nil => simp [addScan]
    | cons q t =>
      simp only [List.nil_append, addScan, List.foldl_nil]
      rw [if_pos (hpost q (by simp))]
      simp
  | cons p t ih =>
    intro ml mr acc post hmid hpost hcross
    have hp := hmid p (by simp)
    simp only [List.cons_append, addScan, List.append_eq]
    rw [if_neg (by omega), if_neg (by omega)]
    rw [ih (min ml p.1) (max mr p.2) (acc ++ [p]) post
      (fun q hq => by have := hmid q (by simp [hq]); omega)
      (fun q hq => by
        have h1 := hpost q hq
        have h2 := hcross p (by simp) q hq
        omega)
      (fun a ha q hq => hcross a (by simp [ha]) q hq)]
    simp

/-- Union of the growing merged range with the collected intervals, as sets
of integer points: folding `min`/`max` over a block of intervals that each
overlap or touch the running range yields exactly the union. -/
theorem addScan_cover :
    ∀ (mid : List (Int × Int)) (ml mr : Int), ml ≤ mr →
      (∀ p ∈ mid, p.1 < p.2) →
      (∀ p ∈ mid, ml ≤ p.2 ∧ p.1 ≤ mr) →
      ∀ x : Int,
        (mid.foldl (fun a p => min a p.1) ml ≤ x ∧
         x < mid.foldl (fun a p => max a p.2) mr) ↔
        ((∃ p ∈ mid, p.1 ≤ x ∧ x < p.2) ∨ (ml ≤ x ∧ x < mr)) := by
  intro mid
  induction mid with
  | nil => intro ml mr _ _ _ x; simp
  | cons p t ih =>
    intro ml mr hmlr hwf hmid x
    have hp := hmid p (by simp)
    have hpwf := hwf p (by simp)
    simp only [List.foldl_cons]
    rw [ih (min ml p.1) (max mr p.2) (by omega)
      (fun q hq => hwf q (by simp [hq]))
      (fun q hq => by have := hmid q (by simp [hq]); omega) x]
    constructor
    · rintro (⟨q, hq, hcov⟩ | hrange)
      · exact Or.inl ⟨q, by simp [hq], hcov⟩
      · by_cases hx : p.1 ≤ x ∧ x < p.2
        · exact Or.inl ⟨p, by simp, hx⟩
        · exact Or.inr (by omega)
    · rintro (⟨q, hq, hcov⟩ | hrange)
      · rcases List.mem_cons.mp hq with h | h
        · subst h; exact Or.inr (by omega)
        · exact Or.inl ⟨q, h, hcov⟩
      · exact Or.inr (by omega)

/-- Elements whose end does not exceed `l` are skipped by `remove`'s
scan. -/
theorem removeScan_skip {l r : Int} (hlr : l < r) :
    ∀ (skip ys : List (Int × Int)),
      (∀ p ∈ skip, p.1 < p.2 ∧ p.2 ≤ l) →
      removeScan l r (skip ++ ys) = removeScan l r ys := by
  intro skip
  induction skip with
  | nil => intro ys _; rfl
  | cons p t ih =>
    intro ys hskip
    have hp := hskip p (by simp)
    simp only [List.cons_append, removeScan]
    rw [if_neg (by omega), if_pos (by omega)]
    exact ih ys (fun q hq => hskip q (by simp [hq]))

/-- `remove`'s scan collects exactly the truly-overlapping middle block,
queuing its remnants in order. -/
theorem removeScan_main {l r : Int} :
    ∀ (mid post : List (Int × Int)),
      (∀ p ∈ mid, l < p.2 ∧ p.1 < r) →
      (∀ q ∈ post, r ≤ q.1) →
      removeScan l r (mid ++ post) = (mid, remnants l r mid) := by
  intro mid
  induction mid with
  | nil =>
    intro post _ hpost
    cases post with
    | nil => simp [removeScan, remnants]
    | cons q t =>
      simp only [List.nil_append, removeScan]
      rw [if_pos (hpost q (by simp))]
      simp [remnants]
  | cons p t ih =>
    intro post hmid hpost
    have hp := hmid p (by simp)
    simp only [List.cons_append, removeScan, List.append_eq]
    rw [if_neg (by omega), if_neg (by omega)]
    simp only [ih post (fun q hq => hmid q (by simp [hq])) hpost]
    simp [remnants]

/-! ### Characterization of `add` on a state satisfying the shape invariant -/

theorem add_char (ivs : List (Int × Int)) (t l r : Int) (hg : goodList ivs)
    (hlr : l < r) :
    ManagedIntervals.add ⟨ivs, t⟩ l r =
      ⟨addPre ivs l ++
        ((addMid ivs l r).foldl (fun a p => min a p.1) l,
         (addMid ivs l r).foldl (fun a p => max a p.2) r) :: addPost ivs l r,
       t - sumLen (addMid ivs l r) +
        ((addMid ivs l r).foldl (fun a p => max a p.2) r -
         (addMid ivs l r).foldl (fun a p => min a p.1) l)⟩ := by
  have hsplit := add_partition ivs l r
  have hpw : (addPre ivs l ++ (addMid ivs l r ++ addPost ivs l r)).Pairwise
      (fun a b : Int × Int => a.2 < b.1) := hsplit ▸ hg.2
  have hstart : scanStart ivs l ≤ (addPre ivs l).length := by
    refine scanStart_le_takeWhile (fun p => decide (p.2 < l)) l ivs hg.2 ?_ ?_
    · intro p hp hc
      have hwf := hg.1 p hp
      simp only [decide_eq_true_eq] at hc
      omega
    · intro p hp hc
      simp only [decide_eq_false_iff_not] at hc
      omega
  have hdrop : ivs.drop (scanStart ivs l) =
      (addPre ivs l).drop (scanStart ivs l) ++
        (addMid ivs l r ++ addPost ivs l r) :=
    calc ivs.drop (scanStart ivs l)
        = (addPre ivs l ++ (addMid ivs l r ++ addPost ivs l r)).drop
            (scanStart ivs l) := by rw [← hsplit]
      _ = _ := List.drop_append_of_le_length hstart
  have hskipmem : ∀ p ∈ (addPre ivs l).drop (scanStart ivs l),
      p.1 < p.2 ∧ p.2 < l := by
    intro p hp
    have hp' : p ∈ addPre ivs l := (List.drop_sublist _ _).mem hp
    exact ⟨hg.1 p ((List.takeWhile_sublist _).mem hp'), mem_addPre hp'⟩
  have hmid : ∀ p ∈ addMid ivs l r, l ≤ p.2 ∧ p.1 ≤ r :=
    fun p hp => mem_addMid hg hp
  have hpost : ∀ q ∈ addPost ivs l r, r < q.1 :=
    fun q hq => mem_addPost hg hq
  have hcross : ∀ p ∈ addMid ivs l r, ∀ q ∈ addPost ivs l r, p.2 < q.1 :=
    fun p hp q hq =>
      (List.pairwise_append.mp (List.pairwise_append.mp hpw).2.1).2.2 p hp q hq
  have hscan : addScan (ivs.drop (scanStart ivs l)) l r [] =
      ((addMid ivs l r).foldl (fun a p => min a p.1) l,
       (addMid ivs l r).foldl (fun a p => max a p.2) r, addMid ivs l r) := by
    rw [hdrop, addScan_skip (le_of_lt hlr) _ _ _ hskipmem,
      addScan_main _ l r [] _ hmid hpost hcross]
    simp
  have hnotpre : ∀ m ∈ addMid ivs l r, m ∉ addPre ivs l := by
    intro m hm hmem
    have h1 := (hmid m hm).1
    have h2 := mem_addPre hmem
    omega
  have hrem : List.foldl slRemove ivs (addMid ivs l r) =
      addPre ivs l ++ addPost ivs l r :=
    calc List.foldl slRemove ivs (addMid ivs l r)
        = List.foldl slRemove
            (addPre ivs l ++ (addMid ivs l r ++ addPost ivs l r))
            (addMid ivs l r) := by rw [← hsplit]
      _ = _ := foldl_slRemove_middle _ _ _ hnotpre
  have hins : slAdd (addPre ivs l ++ addPost ivs l r)
      ((addMid ivs l r).foldl (fun a p => min a p.1) l,
       (addMid ivs l r).foldl (fun a p => max a p.2) r) =
      addPre ivs l ++
        ((addMid ivs l r).foldl (fun a p => min a p.1) l,
         (addMid ivs l r).foldl (fun a p => max a p.2) r) :: addPost ivs l r := by
    refine slAdd_append_cons _ _ _ ?_ ?_
    · intro p hp
      have hwf := hg.1 p ((List.takeWhile_sublist _).mem hp)
      have hplt : p.1 < (addMid ivs l r).foldl (fun a p => min a p.1) l := by
        refine lt_foldl_min _ l (by have := mem_addPre hp; omega) ?_
        intro m hm
        have h1 := (List.pairwise_append.mp hpw).2.2 p hp m
          (List.mem_append_left _ hm)
        omega
      intro hcon
      rcases hcon with h | ⟨h1, h2⟩ <;> omega
    · intro q hq
      have h1 : (addMid ivs l r).foldl (fun a p => min a p.1) l ≤ l :=
        foldl_min_le_init _ l
      have h2 := hpost q hq
      exact Or.inl (by omega)
  show ManagedIntervals.add ⟨ivs, t⟩ l r = _
  unfold ManagedIntervals.add
  rw [if_neg (by omega)]
  simp only [hscan, hrem, hins]

theorem addPost_sublist (ivs : List (Int × Int)) (l r : Int) :
    (addPost ivs l r).Sublist ivs :=
  (List.dropWhile_sublist _).trans (List.dropWhile_sublist _)

theorem addMid_sublist (ivs : List (Int × Int)) (l r : Int) :
    (addMid ivs l r).Sublist ivs :=
  (List.takeWhile_sublist _).trans (List.dropWhile_sublist _)

/-- `add` preserves the class invariant. -/
theorem add_inv (s : ManagedIntervals) (l r : Int) (h : StateInv s) :
    StateInv (s.add l r) := by
  by_cases hlr : l < r
  · obtain ⟨ivs, t⟩ := s
    have hg := h.1
    rw [add_char ivs t l r hg hlr]
    have hsplit := add_partition ivs l r
    have hpw : (addPre ivs l ++ (addMid ivs l r ++ addPost ivs l r)).Pairwise
        (fun a b : Int × Int => a.2 < b.1) := hsplit ▸ hg.2
    have hpwA := List.pairwise_append.mp hpw
    have hpwMP := List.pairwise_append.mp hpwA.2.1
    have hmid : ∀ p ∈ addMid ivs l r, l ≤ p.2 ∧ p.1 ≤ r :=
      fun p hp => mem_addMid hg hp
    have hpost : ∀ q ∈ addPost ivs l r, r < q.1 :=
      fun q hq => mem_addPost hg hq
    have hminle : (addMid ivs l r).foldl (fun a p => min a p.1) l ≤ l :=
      foldl_min_le_init _ l
    have hmaxge : r ≤ (addMid ivs l r).foldl (fun a p => max a p.2) r :=
      le_foldl_max_init _ r
    refine ⟨⟨?_, ?_⟩, ?_⟩
    · intro p hp
      rcases List.mem_append.mp hp with hp | hp
      · exact hg.1 p ((List.takeWhile_sublist _).mem hp)
      · rcases List.mem_cons.mp hp with hp | hp
        · subst hp; simp only []; omega
        · exact hg.1 p ((addPost_sublist ivs l r).mem hp)
    · rw [List.pairwise_append]
      refine ⟨hpwA.1, ?_, ?_⟩
      · rw [List.pairwise_cons]
        refine ⟨?_, hpwMP.2.1⟩
        intro q hq
        refine foldl_max_lt _ r (hpost q hq) ?_
        intro m hm
        exact hpwMP.2.2 m hm q hq
      · intro p hp b hb
        rcases List.mem_cons.mp hb with hb | hb
        · subst hb
          show p.2 < (addMid ivs l r).foldl (fun a p => min a p.1) l
          refine lt_foldl_min _ l (by have := mem_addPre hp; omega) ?_
          intro m hm
          exact hpwA.2.2 p hp m (List.mem_append_left _ hm)
        · exact hpwA.2.2 p hp b (List.mem_append_right _ hb)
    · have htot : t = sumLen ivs := h.2
      have hsum : sumLen ivs =
          sumLen (addPre ivs l) + (sumLen (addMid ivs l r) +
            sumLen (addPost ivs l r)) := by
        rw [hsplit, sumLen_append, sumLen_append]
        rw [← hsplit]
      show t - sumLen (addMid ivs l r) + _ = _
      rw [sumLen_append, sumLen_cons]
      simp only []
      omega
  · have : s.add l r = s := by
      unfold ManagedIntervals.add
      rw [if_pos (by omega)]
    rw [this]; exact h

/-- The set of integer points covered after `add(l, r)` is the old covered
set united with `[l, r)`. -/
theorem add_cover (ivs : List (Int × Int)) (t l r : Int) (hg : goodList ivs)
    (hlr : l < r) (x : Int) :
    Covered (ManagedIntervals.add ⟨ivs, t⟩ l r) x ↔
      Covered ⟨ivs, t⟩ x ∨ (l ≤ x ∧ x < r) := by
  rw [add_char ivs t l r hg hlr]
  have hsplit := add_partition ivs l r
  have hmid : ∀ p ∈ addMid ivs l r, l ≤ p.2 ∧ p.1 ≤ r :=
    fun p hp => mem_addMid hg hp
  have hmerged := addScan_cover (addMid ivs l r) l r (le_of_lt hlr)
    (fun p hp => hg.1 p ((addMid_sublist ivs l r).mem hp)) hmid x
  have hiv : Covered ⟨ivs, t⟩ x ↔
      ((∃ p ∈ addPre ivs l, p.1 ≤ x ∧ x < p.2) ∨
       (∃ p ∈ addMid ivs l r, p.1 ≤ x ∧ x < p.2) ∨
       (∃ p ∈ addPost ivs l r, p.1 ≤ x ∧ x < p.2)) := by
    unfold Covered
    constructor
    · rintro ⟨p, hp, hc⟩
      have hp' := hsplit ▸ hp
      rcases List.mem_append.mp hp' with h | h
      · exact Or.inl ⟨p, h, hc⟩
      · rcases List.mem_append.mp h with h | h
        · exact Or.inr (Or.inl ⟨p, h, hc⟩)
        · exact Or.inr (Or.inr ⟨p, h, hc⟩)
    · rintro (⟨p, hp, hc⟩ | ⟨p, hp, hc⟩ | ⟨p, hp, hc⟩)
      · exact ⟨p, (List.takeWhile_sublist _).mem hp, hc⟩
      · exact ⟨p, (addMid_sublist ivs l r).mem hp, hc⟩
      · exact ⟨p, (addPost_sublist ivs l r).mem hp, hc⟩
  rw [hiv]
  unfold Covered
  simp only [List.mem_append, List.mem_cons]
  constructor
  · rintro ⟨p, hp | hp | hp, hc⟩
    · exact Or.inl (Or.inl ⟨p, hp, hc⟩)
    · subst hp
      rcases hmerged.mp hc with h | h
      · exact Or.inl (Or.inr (Or.inl h))
      · exact Or.inr h
    · exact Or.inl (Or.inr (Or.inr ⟨p, hp, hc⟩))
  · rintro (h | h)
    · rcases h with ⟨p, hp, hc⟩ | ⟨p, hp, hc⟩ | ⟨p, hp, hc⟩
      · exact ⟨p, Or.inl hp, hc⟩
      · exact ⟨_, Or.inr (Or.inl rfl), hmerged.mpr (Or.inl ⟨p, hp, hc⟩)⟩
      · exact ⟨p, Or.inr (Or.inr hp), hc⟩
    · exact ⟨_, Or.inr (Or.inl rfl), hmerged.mpr (Or.inr h)⟩

/-! ### Remnant lists -/

theorem mem_padds {l r : Int} {p a : Int × Int} :
    (a ∈ (if p.1 < l then [(p.1, l)] else []) ++
        (if r < p.2 then [(r, p.2)] else [])) ↔
      ((p.1 < l ∧ a = (p.1, l)) ∨ (r < p.2 ∧ a = (r, p.2))) := by
  by_cases h1 : p.1 < l <;> by_cases h2 : r < p.2 <;> simp [h1, h2]

theorem mem_remnants {l r : Int} {ps : List (Int × Int)} {a : Int × Int} :
    a ∈ remnants l r ps ↔
      ∃ p ∈ ps, (p.1 < l ∧ a = (p.1, l)) ∨ (r < p.2 ∧ a = (r, p.2)) := by
  unfold remnants
  rw [List.mem_flatMap]
  constructor
  · rintro ⟨p, hp, ha⟩
    exact ⟨p, hp, mem_padds.mp ha⟩
  · rintro ⟨p, hp, ha⟩
    exact ⟨p, hp, mem_padds.mpr ha⟩

theorem remnants_wf {l r : Int} {ps : List (Int × Int)} :
    ∀ a ∈ remnants l r ps, a.1 < a.2 := by
  intro a ha
  rcases mem_remnants.mp ha with ⟨p, _, ⟨hc, ha⟩ | ⟨hc, ha⟩⟩ <;> subst ha <;>
    simp only [] <;> omega

theorem remnants_nil (l r : Int) : remnants l r [] = [] := rfl

theorem remnants_pairwise {l r : Int} (hlr : l < r) :
    ∀ ps : List (Int × Int), ps.Pairwise (fun a b => a.2 < b.1) →
      (∀ p ∈ ps, l < p.2 ∧ p.1 < r) →
      (remnants l r ps).Pairwise (fun a b => a.2 < b.1) := by
  intro ps
  induction ps with
  | nil => intro _ _; simp [remnants]
  | cons p t ih =>
    intro hpw hmem
    have hp := hmem p (by simp)
    have hpwc := List.pairwise_cons.mp hpw
    show ((if p.1 < l then [(p.1, l)] else []) ++
        (if r < p.2 then [(r, p.2)] else []) ++ remnants l r t).Pairwise _
    rw [List.append_assoc, List.pairwise_append]
    refine ⟨?_, ?_, ?_⟩
    · by_cases h1 : p.1 < l <;> simp [h1, hlr]
    · rw [List.pairwise_append]
      refine ⟨?_, ih hpwc.2 (fun q hq => hmem q (by simp [hq])), ?_⟩
      · by_cases h2 : r < p.2 <;> simp [h2]
      · intro a ha b hb
        have h2 : r < p.2 ∧ a = (r, p.2) := by
          by_cases hc : r < p.2
          · rw [if_pos hc] at ha; simp at ha; exact ⟨hc, ha⟩
          · rw [if_neg hc] at ha; simp at ha
        obtain ⟨hc, ha⟩ := h2
        subst ha
        rcases mem_remnants.mp hb with ⟨q, hq, ⟨hd, hb⟩ | ⟨hd, hb⟩⟩ <;> subst hb <;>
          simp only [] <;>
          [skip; skip] <;>
          · have h3 := hpwc.1 q hq
            have h4 := hmem q (by simp [hq])
            omega
    · intro a ha b hb
      have h1 : p.1 < l ∧ a = (p.1, l) := by
        by_cases hc : p.1 < l
        · rw [if_pos hc] at ha; simp at ha; exact ⟨hc, ha⟩
        · rw [if_neg hc] at ha; simp at ha
      obtain ⟨hc, ha⟩ := h1
      subst ha
      rcases List.mem_append.mp hb with hb | hb
      · have h2 : r < p.2 ∧ b = (r, p.2) := by
          by_cases hd : r < p.2
          · rw [if_pos hd] at hb; simp at hb; exact ⟨hd, hb⟩
          · rw [if_neg hd] at hb; simp at hb
        obtain ⟨hd, hb⟩ := h2
        subst hb
        simp only []
        omega
      · rcases mem_remnants.mp hb with ⟨q, hq, ⟨hd, hb⟩ | ⟨hd, hb⟩⟩ <;> subst hb <;>
          simp only [] <;>
          · have h3 := hpwc.1 q hq
            have h4 := hmem q (by simp [hq])
            omega

/-! ### Characterization of `remove` on a state satisfying the shape
invariant -/

theorem remPost_sublist (ivs : List (Int × Int)) (l r : Int) :
    (remPost ivs l r).Sublist ivs :=
  (List.dropWhile_sublist _).trans (List.dropWhile_sublist _)

theorem remMid_sublist (ivs : List (Int × Int)) (l r : Int) :
    (remMid ivs l r).Sublist ivs :=
  (List.takeWhile_sublist _).trans (List.dropWhile_sublist _)

theorem remove_char (ivs : List (Int × Int)) (t l r : Int) (hg : goodList ivs)
    (hlr : l < r) :
    ManagedIntervals.remove ⟨ivs, t⟩ l r =
      ⟨remPre ivs l ++ (remnants l r (remMid ivs l r) ++ remPost ivs l r),
       t + sumLen (remnants l r (remMid ivs l r)) -
        sumLen (remMid ivs l r)⟩ := by
  have hsplit := rem_partition ivs l r
  have hpw : (remPre ivs l ++ (remMid ivs l r ++ remPost ivs l r)).Pairwise
      (fun a b : Int × Int => a.2 < b.1) := hsplit ▸ hg.2
  have hpwA := List.pairwise_append.mp hpw
  have hpwMP := List.pairwise_append.mp hpwA.2.1
  have hstart : scanStart ivs l ≤ (remPre ivs l).length := by
    refine scanStart_le_takeWhile (fun p => decide (p.2 ≤ l)) l ivs hg.2 ?_ ?_
    · intro p hp hc
      have hwf := hg.1 p hp
      simp only [decide_eq_true_eq] at hc
      omega
    · intro p hp hc
      simp only [decide_eq_false_iff_not] at hc
      omega
  have hdrop : ivs.drop (scanStart ivs l) =
      (remPre ivs l).drop (scanStart ivs l) ++
        (remMid ivs l r ++ remPost ivs l r) :=
    calc ivs.drop (scanStart ivs l)
        = (remPre ivs l ++ (remMid ivs l r ++ remPost ivs l r)).drop
            (scanStart ivs l) := by rw [← hsplit]
      _ = _ := List.drop_append_of_le_length hstart
  have hskipmem : ∀ p ∈ (remPre ivs l).drop (scanStart ivs l),
      p.1 < p.2 ∧ p.2 ≤ l := by
    intro p hp
    have hp' : p ∈ remPre ivs l := (List.drop_sublist _ _).mem hp
    exact ⟨hg.1 p ((List.takeWhile_sublist _).mem hp'), mem_remPre hp'⟩
  have hmid : ∀ p ∈ remMid ivs l r, l < p.2 ∧ p.1 < r :=
    fun p hp => mem_remMid hg hp
  have hpost : ∀ q ∈ remPost ivs l r, r ≤ q.1 :=
    fun q hq => mem_remPost hg hq
  have hscan : removeScan l r (ivs.drop (scanStart ivs l)) =
      (remMid ivs l r, remnants l r (remMid ivs l r)) := by
    rw [hdrop, removeScan_skip hlr _ _ hskipmem, removeScan_main _ _ hmid hpost]
  by_cases hnil : remMid ivs l r = []
  · have hempty : ivs = remPre ivs l ++ remPost ivs l r := by
      conv_lhs => rw [hsplit]
      rw [hnil]; simp
    unfold ManagedIntervals.remove
    rw [if_neg (by omega)]
    simp only [hscan, hnil, remnants_nil, if_true, eq_self_iff_true]
    show (⟨ivs, t⟩ : ManagedIntervals) = _
    rw [List.nil_append, ← hempty]
    congr 1
    simp [sumLen]
  · have hnotpre : ∀ m ∈ remMid ivs l r, m ∉ remPre ivs l := by
      intro m hm hmem
      have h1 := (hmid m hm).1
      have h2 := mem_remPre hmem
      omega
    have hrem : List.foldl slRemove ivs (remMid ivs l r) =
        remPre ivs l ++ remPost ivs l r :=
      calc List.foldl slRemove ivs (remMid ivs l r)
          = List.foldl slRemove
              (remPre ivs l ++ (remMid ivs l r ++ remPost ivs l r))
              (remMid ivs l r) := by rw [← hsplit]
        _ = _ := foldl_slRemove_middle _ _ _ hnotpre
    have hmemrem : ∀ a ∈ remnants l r (remMid ivs l r),
        ∃ m ∈ remMid ivs l r,
          (m.1 < l ∧ a = (m.1, l)) ∨ (r < m.2 ∧ a = (r, m.2)) :=
      fun a ha => mem_remnants.mp ha
    have hins : List.foldl slAdd (remPre ivs l ++ remPost ivs l r)
        (remnants l r (remMid ivs l r)) =
        remPre ivs l ++ (remnants l r (remMid ivs l r) ++ remPost ivs l r) := by
      refine foldl_slAdd_middle _ _ _ ?_ ?_ ?_
      · intro a ha p hp
        obtain ⟨m, hm, hcase⟩ := hmemrem a ha
        have hwfp := hg.1 p ((List.takeWhile_sublist _).mem hp)
        have hprem := mem_remPre hp
        have hplt : p.1 < a.1 := by
          rcases hcase with ⟨hc, ha'⟩ | ⟨hc, ha'⟩ <;> subst ha'
          · have h1 := hpwA.2.2 p hp m (List.mem_append_left _ hm)
            simp only []
            omega
          · simp only []
            omega
        intro hcon
        rcases hcon with h | ⟨h1, h2⟩ <;> omega
      · intro a ha q hq
        obtain ⟨m, hm, hcase⟩ := hmemrem a ha
        have hq1 := hpost q hq
        refine Or.inl ?_
        rcases hcase with ⟨hc, ha'⟩ | ⟨hc, ha'⟩ <;> subst ha'
        · simp only []
          omega
        · have h1 := hpwMP.2.2 m hm q hq
          simp only []
          omega
      · refine (remnants_pairwise hlr _ hpwMP.1 hmid).imp_of_mem ?_
        intro a b ha hb hgap
        have := remnants_wf a ha
        exact Or.inl (by omega)
    unfold ManagedIntervals.remove
    rw [if_neg (by omega)]
    simp only [hscan]
    rw [if_neg hnil, hrem, hins]

/-- `remove` preserves the class invariant. -/
theorem remove_inv (s : ManagedIntervals) (l r : Int) (h : StateInv s) :
    StateInv (s.remove l r) := by
  by_cases hlr : l < r
  · obtain ⟨ivs, t⟩ := s
    have hg := h.1
    rw [remove_char ivs t l r hg hlr]
    have hsplit := rem_partition ivs l r
    have hpw : (remPre ivs l ++ (remMid ivs l r ++ remPost ivs l r)).Pairwise
        (fun a b : Int × Int => a.2 < b.1) := hsplit ▸ hg.2
    have hpwA := List.pairwise_append.mp hpw
    have hpwMP := List.pairwise_append.mp hpwA.2.1
    have hmid : ∀ p ∈ remMid ivs l r, l < p.2 ∧ p.1 < r :=
      fun p hp => mem_remMid hg hp
    have hpost : ∀ q ∈ remPost ivs l r, r ≤ q.1 :=
      fun q hq => mem_remPost hg hq
    have hmemrem : ∀ a ∈ remnants l r (remMid ivs l r),
        ∃ m ∈ remMid ivs l r,
          (m.1 < l ∧ a = (m.1, l)) ∨ (r < m.2 ∧ a = (r, m.2)) :=
      fun a ha => mem_remnants.mp ha
    refine ⟨⟨?_, ?_⟩, ?_⟩
    · intro p hp
      rcases List.mem_append.mp hp with hp | hp
      · exact hg.1 p ((List.takeWhile_sublist _).mem hp)
      · rcases List.mem_append.mp hp with hp | hp
        · exact remnants_wf p hp
        · exact hg.1 p ((remPost_sublist ivs l r).mem hp)
    · rw [List.pairwise_append]
      refine ⟨hpwA.1, ?_, ?_⟩
      · rw [List.pairwise_append]
        refine ⟨remnants_pairwise hlr _ hpwMP.1 hmid, hpwMP.2.1, ?_⟩
        intro a ha q hq
        obtain ⟨m, hm, hcase⟩ := hmemrem a ha
        have hq1 := hpost q hq
        rcases hcase with ⟨hc, ha'⟩ | ⟨hc, ha'⟩ <;> subst ha'
        · simp only []
          omega
        · have h1 := hpwMP.2.2 m hm q hq
          simp only []
          omega
      · intro p hp b hb
        have hpre2 := mem_remPre hp
        rcases List.mem_append.mp hb with hb | hb
        · obtain ⟨m, hm, hcase⟩ := hmemrem b hb
          rcases hcase with ⟨hc, hb'⟩ | ⟨hc, hb'⟩ <;> subst hb'
          · have h1 := hpwA.2.2 p hp m (List.mem_append_left _ hm)
            simp only []
            omega
          · simp only []
            omega
        · exact hpwA.2.2 p hp b (List.mem_append_right _ hb)
    · have htot : t = sumLen ivs := h.2
      have hsum : sumLen ivs =
          sumLen (remPre ivs l) + (sumLen (remMid ivs l r) +
            sumLen (remPost ivs l r)) := by
        rw [hsplit, sumLen_append, sumLen_append]
        rw [← hsplit]
      show t + _ - _ = _
      rw [sumLen_append, sumLen_append]
      omega
  · have : s.remove l r = s := by
      unfold ManagedIntervals.remove
      rw [if_pos (by omega)]
    rw [this]; exact h

/-- The set of integer points covered after `remove(l, r)` is the old
covered set minus `[l, r)`. -/
theorem remove_cover (ivs : List (Int × Int)) (t l r : Int)
    (hg : goodList ivs) (hlr : l ≤ r) (x : Int) :
    Covered (ManagedIntervals.remove ⟨ivs, t⟩ l r) x ↔
      Covered ⟨ivs, t⟩ x ∧ ¬ (l ≤ x ∧ x < r) := by
  rcases eq_or_lt_of_le hlr with heq | hlt
  · subst heq
    have hid : ManagedIntervals.remove ⟨ivs, t⟩ l l = ⟨ivs, t⟩ := by
      unfold ManagedIntervals.remove
      rw [if_pos (by omega)]
    rw [hid]
    constructor
    · intro h; exact ⟨h, by omega⟩
    · intro h; exact h.1
  · rw [remove_char ivs t l r hg hlt]
    have hsplit := rem_partition ivs l r
    have hmid : ∀ p ∈ remMid ivs l r, l < p.2 ∧ p.1 < r :=
      fun p hp => mem_remMid hg hp
    have hpost : ∀ q ∈ remPost ivs l r, r ≤ q.1 :=
      fun q hq => mem_remPost hg hq
    have hiv : Covered ⟨ivs, t⟩ x ↔
        ((∃ p ∈ remPre ivs l, p.1 ≤ x ∧ x < p.2) ∨
         (∃ p ∈ remMid ivs l r, p.1 ≤ x ∧ x < p.2) ∨
         (∃ p ∈ remPost ivs l r, p.1 ≤ x ∧ x < p.2)) := by
      unfold Covered
      constructor
      · rintro ⟨p, hp, hc⟩
        have hp' := hsplit ▸ hp
        rcases List.mem_append.mp hp' with h | h
        · exact Or.inl ⟨p, h, hc⟩
        · rcases List.mem_append.mp h with h | h
          · exact Or.inr (Or.inl ⟨p, h, hc⟩)
          · exact Or.inr (Or.inr ⟨p, h, hc⟩)
      · rintro (⟨p, hp, hc⟩ | ⟨p, hp, hc⟩ | ⟨p, hp, hc⟩)
        · exact ⟨p, (List.takeWhile_sublist _).mem hp, hc⟩
        · exact ⟨p, (remMid_sublist ivs l r).mem hp, hc⟩
        · exact ⟨p, (remPost_sublist ivs l r).mem hp, hc⟩
    rw [hiv]
    unfold Covered
    simp only [List.mem_append]
    constructor
    · rintro ⟨p, hp | hp | hp, hc⟩
      · have h1 := mem_remPre hp
        exact ⟨Or.inl ⟨p, hp, hc⟩, by omega⟩
      · obtain ⟨m, hm, hcase⟩ := mem_remnants.mp hp
        have h1 := hmid m hm
        rcases hcase with ⟨hc', hp'⟩ | ⟨hc', hp'⟩ <;> subst hp' <;>
          simp only [] at hc
        · exact ⟨Or.inr (Or.inl ⟨m, hm, by omega⟩), by omega⟩
        · exact ⟨Or.inr (Or.inl ⟨m, hm, by omega⟩), by omega⟩
      · have h1 := hpost p hp
        exact ⟨Or.inr (Or.inr ⟨p, hp, hc⟩), by omega⟩
    · rintro ⟨⟨p, hp, hc⟩ | ⟨p, hp, hc⟩ | ⟨p, hp, hc⟩, hout⟩
      · exact ⟨p, Or.inl hp, hc⟩
      · have h1 := hmid p hp
        by_cases hx : x < l
        · refine ⟨(p.1, l), Or.inr (Or.inl ?_), by simp only []; omega⟩
          exact mem_remnants.mpr ⟨p, hp, Or.inl ⟨by omega, rfl⟩⟩
        · refine ⟨(r, p.2), Or.inr (Or.inl ?_), by simp only []; omega⟩
          exact mem_remnants.mpr ⟨p, hp, Or.inr ⟨by omega, rfl⟩⟩
      · exact ⟨p, Or.inr (Or.inr hp), hc⟩

/-! ### `get_interval` -/

theorem get_interval_sound :
    ∀ (ivs : List (Int × Int)) (t x : Int) (p : Int × Int),
      ManagedIntervals.get_interval ⟨ivs, t⟩ x = some p →
      p ∈ ivs ∧ p.1 ≤ x ∧ x < p.2 := by
  intro ivs
  induction ivs with
  | nil =>
    intro t x p h
    simp [ManagedIntervals.get_interval, bisectIdx] at h
  | cons a xs ih =>
    intro t x p h
    by_cases hax : x < a.1
    · have h0 : bisectIdx (a :: xs) x = 0 := by
        simp [bisectIdx, List.findIdx_cons, hax]
      simp only [ManagedIntervals.get_interval, h0, if_pos] at h
      cases h
    · have hstep : bisectIdx (a :: xs) x = bisectIdx xs x + 1 := by
        simp [bisectIdx, List.findIdx_cons, hax]
      cases hn : bisectIdx xs x with
      | zero =>
        simp only [ManagedIntervals.get_interval, hstep, hn] at h
        norm_num at h
        obtain ⟨hx2, hap⟩ := h
        subst hap
        exact ⟨by simp, by omega, hx2⟩
      | succ n =>
        have hxs : ManagedIntervals.get_interval ⟨xs, t⟩ x = some p := by
          simp only [ManagedIntervals.get_interval, hstep, hn] at h ⊢
          norm_num at h ⊢
          exact h
        obtain ⟨h1, h2, h3⟩ := ih t x p hxs
        exact ⟨by simp [h1], h2, h3⟩

/-! ### Invariant along call sequences -/

theorem empty_inv : StateInv ManagedIntervals.empty := by
  refine ⟨⟨?_, List.Pairwise.nil⟩, rfl⟩
  intro p hp
  cases hp

theorem applyOp_inv (s : ManagedIntervals) (op : Op) (h : StateInv s) :
    StateInv (applyOp s op) := by
  cases op with
  | add l r => exact add_inv s l r h
  | remove l r => exact remove_inv s l r h

theorem foldl_applyOp_inv :
    ∀ (ops : List Op) (s : ManagedIntervals), StateInv s →
      StateInv (ops.foldl applyOp s) := by
  intro ops
  induction ops with
  | nil => intro s h; exact h
  | cons op t ih =>
    intro s h
    exact ih (applyOp s op) (applyOp_inv s op h)

theorem run_inv (ops : List Op) : StateInv (run ops) :=
  foldl_applyOp_inv ops ManagedIntervals.empty empty_inv

/-! ### The scanned middle blocks as filters of the whole list -/

theorem addMid_filter (ivs : List (Int × Int)) (l r : Int)
    (hg : goodList ivs) :
    ivs.filter (fun p => decide (l ≤ p.2) && decide (p.1 ≤ r)) =
      addMid ivs l r := by
  conv_lhs => rw [add_partition ivs l r]
  rw [List.filter_append, List.filter_append]
  rw [List.filter_eq_nil_iff.mpr ?hpre, List.filter_eq_self.mpr ?hmid,
    List.filter_eq_nil_iff.mpr ?hpost]
  · simp
  case hpre =>
    intro a ha
    have := mem_addPre ha
    simp only [Bool.and_eq_true, decide_eq_true_eq, not_and]
    omega
  case hmid =>
    intro a ha
    have := mem_addMid hg ha
    simp only [Bool.and_eq_true, decide_eq_true_eq]
    omega
  case hpost =>
    intro a ha
    have := mem_addPost hg ha
    simp only [Bool.and_eq_true, decide_eq_true_eq, not_and]
    omega

theorem remMid_filter (ivs : List (Int × Int)) (l r : Int)
    (hg : goodList ivs) :
    ivs.filter (fun p => decide (p.1 < r) && decide (l < p.2)) =
      remMid ivs l r := by
  conv_lhs => rw [rem_partition ivs l r]
  rw [List.filter_append, List.filter_append]
  rw [List.filter_eq_nil_iff.mpr ?hpre, List.filter_eq_self.mpr ?hmid,
    List.filter_eq_nil_iff.mpr ?hpost]
  · simp
  case hpre =>
    intro a ha
    have := mem_remPre ha
    simp only [Bool.and_eq_true, decide_eq_true_eq, not_and]
    omega
  case hmid =>
    intro a ha
    have := mem_remMid hg ha
    simp only [Bool.and_eq_true, decide_eq_true_eq]
    omega
  case hpost =>
    intro a ha
    have := mem_remPost hg ha
    simp only [Bool.and_eq_true, decide_eq_true_eq, not_and]
    omega

/-! ### Idempotence of `add` -/

/-- Adding `[l, r)` to a state that already stores a single merged interval
covering `[l, r)` in place (flanked by non-touching intervals) changes
nothing. -/
theorem add_to_merged (pre post : List (Int × Int)) (ml mr t' l r : Int)
    (hlr : l < r) (hml : ml ≤ l) (hmr : r ≤ mr)
    (hpre : ∀ p ∈ pre, p.2 < l) (hpost : ∀ q ∈ post, r < q.1)
    (hg : goodList (pre ++ (ml, mr) :: post)) :
    ManagedIntervals.add ⟨pre ++ (ml, mr) :: post, t'⟩ l r =
      ⟨pre ++ (ml, mr) :: post, t'⟩ := by
  rw [add_char _ t' l r hg hlr]
  have h2 : (pre ++ (ml, mr) :: post).dropWhile (fun p => decide (p.2 < l)) =
      (ml, mr) :: post := by
    rw [List.dropWhile_append_of_pos (by
      intro a ha; simpa using hpre a ha)]
    rw [List.dropWhile_cons_of_neg (by
      simp only [decide_eq_true_eq]; omega)]
  have h1 : addPre (pre ++ (ml, mr) :: post) l = pre := by
    unfold addPre
    rw [List.takeWhile_append_of_pos (by
      intro a ha; simpa using hpre a ha)]
    rw [List.takeWhile_cons_of_neg (by
      simp only [decide_eq_true_eq]; omega)]
    simp
  have h3 : addMid (pre ++ (ml, mr) :: post) l r = [(ml, mr)] := by
    show ((pre ++ (ml, mr) :: post).dropWhile _).takeWhile _ = _
    rw [h2]
    rw [List.takeWhile_cons_of_pos (by
      simp only [decide_eq_true_eq]; omega)]
    rw [takeWhile_eq_nil_all (by
      intro a ha
      have := hpost a ha
      simp only [decide_eq_true_eq]
      omega)]
  have h4 : addPost (pre ++ (ml, mr) :: post) l r = post := by
    show ((pre ++ (ml, mr) :: post).dropWhile _).dropWhile _ = _
    rw [h2]
    rw [List.dropWhile_cons_of_pos (by
      simp only [decide_eq_true_eq]; omega)]
    exact dropWhile_eq_self_all (by
      intro a ha
      have := hpost a ha
      simp only [decide_eq_true_eq]
      omega)
  rw [h1, h3, h4]
  simp only [List.foldl_cons, List.foldl_nil]
  rw [min_eq_right hml, max_eq_right hmr]
  congr 1
  simp only [sumLen, List.map_cons, List.map_nil, List.sum_cons, List.sum_nil]
  omega

/-- A second identical `add` is the identity on the state produced by the
first. -/
theorem add_idem_state (ivs : List (Int × Int)) (t l r : Int)
    (hinv : StateInv (⟨ivs, t⟩ : ManagedIntervals)) (hlr : l < r) :
    (ManagedIntervals.add ⟨ivs, t⟩ l r).add l r =
      ManagedIntervals.add ⟨ivs, t⟩ l r := by
  have hg := hinv.1
  have hchar := add_char ivs t l r hg hlr
  have hgood : goodList (addPre ivs l ++
      ((addMid ivs l r).foldl (fun a p => min a p.1) l,
       (addMid ivs l r).foldl (fun a p => max a p.2) r) ::
        addPost ivs l r) := by
    have h := (add_inv ⟨ivs, t⟩ l r hinv).1
    rw [hchar] at h
    exact h
  rw [hchar]
  exact add_to_merged _ _ _ _ _ l r hlr (foldl_min_le_init _ l)
    (le_foldl_max_init _ r) (fun p hp => mem_addPre hp)
    (fun q hq => mem_addPost hg hq) hgood

/-! ## The claims -/

/-- Claim C1: for every state satisfying the class invariant and `l < r`,
after `add(l, r)` the covered set equals the old covered set united with
`[l, r)`; the stored intervals that overlapped or touched `[l, r)` (exactly
those with `l ≤ R` and `L ≤ r`) are replaced by the single merged interval,
the rest survive in place; and afterwards no two stored intervals overlap
or touch. -/
theorem add_union_correct (s : ManagedIntervals) (l r : Int)
    (hinv : StateInv s) (hlr : l < r) :
    (∀ x : Int, Covered (s.add l r) x ↔ (Covered s x ∨ (l ≤ x ∧ x < r))) ∧
    s.intervals.filter (fun p => decide (l ≤ p.2) && decide (p.1 ≤ r)) =
      addMid s.intervals l r ∧
    (s.add l r).intervals =
      addPre s.intervals l ++
        ((addMid s.intervals l r).foldl (fun a p => min a p.1) l,
         (addMid s.intervals l r).foldl (fun a p => max a p.2) r) ::
          addPost s.intervals l r ∧
    goodList (s.add l r).intervals := by
  obtain ⟨ivs, t⟩ := s
  refine ⟨fun x => add_cover ivs t l r hinv.1 hlr x,
    addMid_filter ivs l r hinv.1, ?_, (add_inv ⟨ivs, t⟩ l r hinv).1⟩
  rw [add_char ivs t l r hinv.1 hlr]

theorem add_union_correct_witness :
    StateInv (⟨[(5, 6)], 1⟩ : ManagedIntervals) ∧ ((1 : Int) < 3) ∧
    (Covered (ManagedIntervals.add ⟨[(5, 6)], 1⟩ 1 3) 2 ↔
      (Covered ⟨[(5, 6)], 1⟩ 2 ∨ ((1 : Int) ≤ 2 ∧ (2 : Int) < 3))) :=
  ⟨by decide, by decide,
    (add_union_correct ⟨[(5, 6)], 1⟩ 1 3 (by decide) (by decide)).1 2⟩

/-- Claim C2: for every state satisfying the class invariant and `l ≤ r`,
after `remove(l, r)` the covered set equals the old covered set minus
`[l, r)`, the disjointness invariant still holds, and (for `l < r`) the
result replaces exactly the truly-overlapping intervals (those with
`L < r` and `R > l`) by their surviving remnants. -/
theorem remove_subtract_correct (s : ManagedIntervals) (l r : Int)
    (hinv : StateInv s) (hlr : l ≤ r) :
    (∀ x : Int, Covered (s.remove l r) x ↔
      (Covered s x ∧ ¬ (l ≤ x ∧ x < r))) ∧
    goodList (s.remove l r).intervals ∧
    (l < r →
      s.intervals.filter (fun p => decide (p.1 < r) && decide (l < p.2)) =
        remMid s.intervals l r ∧
      (s.remove l r).intervals =
        remPre s.intervals l ++
          (remnants l r (remMid s.intervals l r) ++
            remPost s.intervals l r)) := by
  obtain ⟨ivs, t⟩ := s
  refine ⟨fun x => remove_cover ivs t l r hinv.1 hlr x,
    (remove_inv ⟨ivs, t⟩ l r hinv).1, ?_⟩
  intro hlt
  refine ⟨remMid_filter ivs l r hinv.1, ?_⟩
  rw [remove_char ivs t l r hinv.1 hlt]

theorem remove_subtract_correct_witness :
    StateInv (⟨[(0, 10)], 10⟩ : ManagedIntervals) ∧ ((3 : Int) ≤ 7) ∧
    (Covered (ManagedIntervals.remove ⟨[(0, 10)], 10⟩ 3 7) 5 ↔
      (Covered ⟨[(0, 10)], 10⟩ 5 ∧ ¬ ((3 : Int) ≤ 5 ∧ (5 : Int) < 7))) :=
  ⟨by decide, by decide,
    (remove_subtract_correct ⟨[(0, 10)], 10⟩ 3 7 (by decide) (by decide)).1 5⟩

/-- Claim C3: after any finite sequence of `add`/`remove` calls starting
from the empty set, the stored intervals are sorted ascending by left
endpoint, adjacent intervals satisfy `r_i < l_{i+1}`, and every stored
interval is nonempty. -/
theorem run_sorted_disjoint (ops : List Op) :
    List.Chain' (fun a b : Int × Int => a.2 < b.1) (run ops).intervals ∧
    (∀ p ∈ (run ops).intervals, p.1 < p.2) ∧
    List.Pairwise (fun a b : Int => a < b)
      ((run ops).intervals.map Prod.fst) := by
  have h := (run_inv ops).1
  refine ⟨h.2.chain', h.1, ?_⟩
  rw [List.pairwise_map]
  refine h.2.imp_of_mem ?_
  intro a b ha hb hrel
  have := h.1 a ha
  omega

/-- Claim C4: after any finite sequence of `add`/`remove` calls starting
from the empty set, the cached `total_length` equals the sum of `r - l`
over `to_list()`, and the freshly constructed set has `total_length = 0`. -/
theorem run_total_length_consistent :
    (∀ ops : List Op, (run ops).total_length =
      (((run ops).to_list).map (fun p => p.2 - p.1)).sum) ∧
    ManagedIntervals.empty.total_length = 0 :=
  ⟨fun ops => (run_inv ops).2, rfl⟩

/-- Claim C5, counterexample: `add(5, 3)` and `remove(5, 3)` (with
`r < l`) on the empty set do not raise any `InvalidRange` error — the
method bodies contain no raise at all — but return normally with the state
unchanged. -/
theorem invalid_range_no_error_cex :
    ManagedIntervals.addE ⟨[], 0⟩ 5 3 = Except.ok ⟨[], 0⟩ ∧
    ManagedIntervals.removeE ⟨[], 0⟩ 5 3 = Except.ok ⟨[], 0⟩ :=
  ⟨rfl, rfl⟩

/-- Claim C5, amended: for `r < l`, `add(l, r)` and `remove(l, r)` return
normally (no `InvalidRange` error exists in the code) and leave the state
unchanged — they are silent no-ops, exactly like the `l = r` case. -/
theorem invalid_range_silent_noop (s : ManagedIntervals) (l r : Int)
    (h : r < l) :
    ManagedIntervals.addE s l r = Except.ok s ∧
    ManagedIntervals.removeE s l r = Except.ok s ∧
    (∀ c : Int, ManagedIntervals.addE s c c = Except.ok s ∧
      ManagedIntervals.removeE s c c = Except.ok s) := by
  have ha : ∀ a b : Int, b ≤ a → s.add a b = s := by
    intro a b hab
    unfold ManagedIntervals.add
    rw [if_pos hab]
  have hb : ∀ a b : Int, b ≤ a → s.remove a b = s := by
    intro a b hab
    unfold ManagedIntervals.remove
    rw [if_pos hab]
  refine ⟨?_, ?_, fun c => ⟨?_, ?_⟩⟩
  · unfold ManagedIntervals.addE; rw [ha l r (le_of_lt h)]
  · unfold ManagedIntervals.removeE; rw [hb l r (le_of_lt h)]
  · unfold ManagedIntervals.addE; rw [ha c c (le_refl c)]
  · unfold ManagedIntervals.removeE; rw [hb c c (le_refl c)]

theorem invalid_range_silent_noop_witness :
    ((3 : Int) < 5) ∧
    ManagedIntervals.addE ⟨[(1, 2)], 1⟩ 5 3 = Except.ok ⟨[(1, 2)], 1⟩ :=
  ⟨by decide, (invalid_range_silent_noop ⟨[(1, 2)], 1⟩ 5 3 (by decide)).1⟩

/-- Claim C6: `contains(x)` is true exactly when `get_interval(x)` returns
a result; a returned interval is stored and covers `x`
(`l ≤ x < r`); when no stored interval covers `x`, `get_interval(x)`
returns the empty result. -/
theorem contains_get_interval_consistent (s : ManagedIntervals) (x : Int)
    (hinv : StateInv s) :
    (s.contains x = true ↔ (s.get_interval x).isSome = true) ∧
    (∀ a b : Int, s.get_interval x = some (a, b) →
      ((a, b) ∈ s.intervals ∧ a ≤ x ∧ x < b)) ∧
    (¬ Covered s x → s.get_interval x = none) := by
  obtain ⟨ivs, t⟩ := s
  refine ⟨Iff.rfl, ?_, ?_⟩
  · intro a b h
    exact get_interval_sound ivs t x (a, b) h
  · intro hnc
    cases hgi : ManagedIntervals.get_interval ⟨ivs, t⟩ x with
    | none => rfl
    | some p =>
      exfalso
      obtain ⟨h1, h2, h3⟩ := get_interval_sound ivs t x p hgi
      exact hnc ⟨p, h1, h2, h3⟩

theorem contains_get_interval_consistent_witness :
    StateInv (⟨[(1, 4)], 3⟩ : ManagedIntervals) ∧
    (¬ Covered ⟨[(1, 4)], 3⟩ 9 →
      ManagedIntervals.get_interval ⟨[(1, 4)], 3⟩ 9 = none) :=
  ⟨by decide,
    (contains_get_interval_consistent ⟨[(1, 4)], 3⟩ 9 (by decide)).2.2⟩

/-- Claim C7: the boundary convention is asymmetric — a stored interval
that merely touches `[l, r)` at an endpoint (`R = l` or `L = r`) survives
`remove(l, r)` unchanged but is absorbed by `add(l, r)` (it is no longer
stored afterwards, having been merged into a strictly larger interval). -/
theorem boundary_asymmetry_add_remove (s : ManagedIntervals) (L R l r : Int)
    (hinv : StateInv s) (hmem : (L, R) ∈ s.intervals) (hlr : l < r)
    (htouch : R = l ∨ L = r) :
    (L, R) ∈ (s.remove l r).intervals ∧
    (L, R) ∉ (s.add l r).intervals := by
  obtain ⟨ivs, t⟩ := s
  have hg := hinv.1
  have hwf : L < R := hg.1 (L, R) hmem
  constructor
  · rw [remove_char ivs t l r hg hlr]
    have hsplit := rem_partition ivs l r
    have hmem' := hsplit ▸ hmem
    rcases List.mem_append.mp hmem' with h | h
    · exact List.mem_append_left _ h
    · rcases List.mem_append.mp h with h | h
      · exfalso
        have hov : l < R ∧ L < r := by
          have := mem_remMid hg h
          simpa using this
        rcases htouch with ht | ht <;> omega
      · exact List.mem_append_right _ (List.mem_append_right _ h)
  · rw [add_char ivs t l r hg hlr]
    intro hcon
    rcases List.mem_append.mp hcon with h | h
    · have hRl : R < l := by
        have := mem_addPre h
        simpa using this
      rcases htouch with ht | ht <;> omega
    · rcases List.mem_cons.mp h with h | h
      · have hml : (addMid ivs l r).foldl (fun a p => min a p.1) l ≤ l :=
          foldl_min_le_init _ l
        have hmr : r ≤ (addMid ivs l r).foldl (fun a p => max a p.2) r :=
          le_foldl_max_init _ r
        have hL := congrArg Prod.fst h
        have hR := congrArg Prod.snd h
        simp only [] at hL hR
        rcases htouch with ht | ht <;> omega
      · have hrL : r < L := by
          have := mem_addPost hg h
          simpa using this
        rcases htouch with ht | ht <;> omega

theorem boundary_asymmetry_add_remove_witness :
    StateInv (⟨[(0, 2)], 2⟩ : ManagedIntervals) ∧ ((2 : Int) < 5) ∧
    ((0, 2) ∈ (ManagedIntervals.remove ⟨[(0, 2)], 2⟩ 2 5).intervals ∧
     (0, 2) ∉ (ManagedIntervals.add ⟨[(0, 2)], 2⟩ 2 5).intervals) :=
  ⟨by decide, by decide,
    boundary_asymmetry_add_remove ⟨[(0, 2)], 2⟩ 0 2 2 5 (by decide)
      (by decide) (by decide) (Or.inl rfl)⟩

/-- Claim C8: `add` is idempotent — for any state satisfying the class
invariant and `l ≤ r`, a second identical `add(l, r)` leaves `to_list()`
and `total_length()` exactly as after the first call. -/
theorem add_idempotent (s : ManagedIntervals) (l r : Int)
    (hinv : StateInv s) (hlr : l ≤ r) :
    ((s.add l r).add l r).to_list = (s.add l r).to_list ∧
    ((s.add l r).add l r).total_length = (s.add l r).total_length := by
  rcases eq_or_lt_of_le hlr with heq | hlt
  · subst heq
    have hid : s.add l l = s := by
      unfold ManagedIntervals.add
      rw [if_pos (le_refl l)]
    rw [hid, hid]
    exact ⟨rfl, rfl⟩
  · obtain ⟨ivs, t⟩ := s
    have h := add_idem_state ivs t l r hinv hlt
    rw [h]
    exact ⟨rfl, rfl⟩

theorem add_idempotent_witness :
    StateInv (⟨[(1, 5), (8, 10)], 6⟩ : ManagedIntervals) ∧
    ((4 : Int) ≤ 9) ∧
    ((ManagedIntervals.add
        (ManagedIntervals.add ⟨[(1, 5), (8, 10)], 6⟩ 4 9) 4 9).to_list =
      (ManagedIntervals.add ⟨[(1, 5), (8, 10)], 6⟩ 4 9).to_list) :=
  ⟨by decide, by decide,
    (add_idempotent ⟨[(1, 5), (8, 10)], 6⟩ 4 9 (by decide) (by decide)).1⟩

/-- Claim C9: complementarity on the empty set — for any `l ≤ r`,
`add(l, r)` followed by `remove(l, r)` on a freshly constructed set yields
the empty set again: no stored intervals and `total_length = 0`. -/
theorem add_remove_complement_empty (l r : Int) (hlr : l ≤ r) :
    (ManagedIntervals.empty.add l r).remove l r = ManagedIntervals.empty ∧
    ((ManagedIntervals.empty.add l r).remove l r).to_list = [] ∧
    ((ManagedIntervals.empty.add l r).remove l r).length = 0 ∧
    ((ManagedIntervals.empty.add l r).remove l r).total_length = 0 := by
  have key : (ManagedIntervals.empty.add l r).remove l r =
      ManagedIntervals.empty := by
    rcases eq_or_lt_of_le hlr with heq | hlt
    · subst heq
      have h1 : ManagedIntervals.empty.add l l = ManagedIntervals.empty := by
        unfold ManagedIntervals.add
        rw [if_pos (le_refl l)]
      rw [h1]
      unfold ManagedIntervals.remove
      rw [if_pos (le_refl l)]
    · have hadd : ManagedIntervals.empty.add l r = ⟨[(l, r)], r - l⟩ := by
        show ManagedIntervals.add ⟨[], 0⟩ l r = _
        rw [add_char [] 0 l r empty_inv.1 hlt]
        simp [addPre, addMid, addPost, sumLen]
      have hgood1 : goodList [(l, r)] := by
        refine ⟨?_, ?_⟩
        · intro p hp
          simp at hp
          subst hp
          exact hlt
        · simp
      have hrem : ManagedIntervals.remove ⟨[(l, r)], r - l⟩ l r =
          ManagedIntervals.empty := by
        rw [remove_char [(l, r)] (r - l) l r hgood1 hlt]
        have e2 : ([(l, r)] : List (Int × Int)).dropWhile
            (fun p => decide (p.2 ≤ l)) = [(l, r)] :=
          List.dropWhile_cons_of_neg (by
            simp only [decide_eq_true_eq]; omega)
        have e1 : remPre [(l, r)] l = [] := by
          unfold remPre
          exact List.takeWhile_cons_of_neg (by
            simp only [decide_eq_true_eq]; omega)
        have e3 : remMid [(l, r)] l r = [(l, r)] := by
          show (([(l, r)] : List (Int × Int)).dropWhile _).takeWhile _ = _
          rw [e2]
          rw [List.takeWhile_cons_of_pos (by
            simp only [decide_eq_true_eq]; omega)]
          simp
        have e4 : remPost [(l, r)] l r = [] := by
          show (([(l, r)] : List (Int × Int)).dropWhile _).dropWhile _ = _
          rw [e2]
          rw [List.dropWhile_cons_of_pos (by
            simp only [decide_eq_true_eq]; omega)]
          rfl
        have e5 : remnants l r [(l, r)] = [] := by
          unfold remnants
          simp
        rw [e1, e3, e4, e5]
        show (⟨[], _⟩ : ManagedIntervals) = _
        unfold ManagedIntervals.empty
        congr 1
        simp [sumLen]
      rw [hadd, hrem]
  rw [key]
  exact ⟨rfl, rfl, rfl, rfl⟩

theorem add_remove_complement_empty_witness :
    ((1 : Int) ≤ 4) ∧
    (ManagedIntervals.empty.add 1 4).remove 1 4 = ManagedIntervals.empty :=
  ⟨by decide, (add_remove_complement_empty 1 4 (by decide)).1⟩

/-- Claim C10: for `l ≥ r` (including strictly inverted ranges), `add` and
`remove` return normally without raising, and leave `to_list()`, `len()`
and `total_length()` unchanged: invalid ranges are silently ignored. -/
theorem degenerate_range_noop (s : ManagedIntervals) (l r : Int)
    (h : l ≥ r) :
    s.add l r = s ∧ s.remove l r = s ∧
    ManagedIntervals.addE s l r = Except.ok s ∧
    ManagedIntervals.removeE s l r = Except.ok s ∧
    (s.add l r).to_list = s.to_list ∧
    (s.remove l r).to_list = s.to_list ∧
    (s.add l r).length = s.length ∧
    (s.remove l r).length = s.length ∧
    (s.add l r).total_length = s.total_length ∧
    (s.remove l r).total_length = s.total_length := by
  have ha : s.add l r = s := by
    unfold ManagedIntervals.add
    rw [if_pos h]
  have hr : s.remove l r = s := by
    unfold ManagedIntervals.remove
    rw [if_pos h]
  refine ⟨ha, hr, ?_, ?_, by rw [ha], by rw [hr], by rw [ha], by rw [hr],
    by rw [ha], by rw [hr]⟩
  · unfold ManagedIntervals.addE
    rw [ha]
  · unfold ManagedIntervals.removeE
    rw [hr]

theorem degenerate_range_noop_witness :
    ((7 : Int) ≥ 2) ∧
    ManagedIntervals.add ⟨[(0, 3)], 3⟩ 7 2 = ⟨[(0, 3)], 3⟩ :=
  ⟨by decide, (degenerate_range_noop ⟨[(0, 3)], 3⟩ 7 2 (by decide)).1⟩
